import Mathlib

/-!
Verification of the PyHa statistics core (src/PyHa/statistics.py and
src/PyHa/annotation_post_processing.py) through a shallow embedding.

Annotation tables (pandas dataframes in Kaleidoscope format) are modelled as
lists of `Row`.  Seconds values are exact rationals, sample indices are
integers.  Python `round(x, n)` is round-half-to-even, modelled by `roundHE`.
NumPy occupancy arrays (`arr[minval:maxval] = 1` followed by slice queries)
are modelled by their membership predicates over integer sample indices; the
model assumes the schema invariant `OFFSET >= 0`, so that no negative NumPy
slice index (which would wrap around) ever occurs.
-/

namespace PyHa

/-- Strings are modelled as explicit character lists so that the Python
string operations (`split`, `join`, `startswith`, concatenation) have
fully transparent definitions. -/
abbrev Str := List Char

/-- Python `round` to the nearest integer, ties going to the even integer
(round-half-to-even), on exact rationals. -/
def roundHE (q : ℚ) : ℤ :=
  if q - (⌊q⌋ : ℚ) < 1/2 then ⌊q⌋
  else if 1/2 < q - (⌊q⌋ : ℚ) then ⌊q⌋ + 1
  else if ⌊q⌋ % 2 = 0 then ⌊q⌋ else ⌊q⌋ + 1

/-- Python `round(x, 4)`. -/
def round4 (q : ℚ) : ℚ := (roundHE (q * 10000) : ℚ) / 10000

/-- Python `round(x, 6)`. -/
def round6 (q : ℚ) : ℚ := (roundHE (q * 1000000) : ℚ) / 1000000

theorem roundHE_intCast (n : ℤ) : roundHE (n : ℚ) = n := by
  simp [roundHE]

theorem roundHE_natCast (n : ℕ) : roundHE (n : ℚ) = n := by
  simpa using roundHE_intCast (n : ℤ)

theorem floor_le_roundHE (q : ℚ) : ⌊q⌋ ≤ roundHE q := by
  unfold roundHE
  split_ifs <;> omega

theorem roundHE_le_floor_add_one (q : ℚ) : roundHE q ≤ ⌊q⌋ + 1 := by
  unfold roundHE
  split_ifs <;> omega

theorem roundHE_nonneg {q : ℚ} (h : 0 ≤ q) : 0 ≤ roundHE q :=
  le_trans (by exact_mod_cast Int.le_floor.mpr (by exact_mod_cast h)) (floor_le_roundHE q)

theorem roundHE_le_of_le_int {q : ℚ} {N : ℤ} (h : q ≤ (N : ℚ)) : roundHE q ≤ N := by
  rcases eq_or_lt_of_le h with heq | hlt
  · subst heq
    rw [roundHE_intCast]
  · have hfloor : ⌊q⌋ + 1 ≤ N := by
      have : ⌊q⌋ < N := Int.floor_lt.mpr (by exact_mod_cast hlt)
      omega
    exact le_trans (roundHE_le_floor_add_one q) hfloor

theorem roundHE_mono {p q : ℚ} (h : p ≤ q) : roundHE p ≤ roundHE q := by
  rcases lt_or_le ⌊p⌋ ⌊q⌋ with hf | hf
  · calc roundHE p ≤ ⌊p⌋ + 1 := roundHE_le_floor_add_one p
      _ ≤ ⌊q⌋ := by omega
      _ ≤ roundHE q := floor_le_roundHE q
  · have hfe : ⌊p⌋ = ⌊q⌋ := le_antisymm (Int.floor_le_floor h) hf
    have hfr : p - (⌊q⌋ : ℚ) ≤ q - (⌊q⌋ : ℚ) := by linarith
    unfold roundHE
    rw [hfe]
    split_ifs <;> first | omega | linarith

theorem round4_nonneg {q : ℚ} (h : 0 ≤ q) : 0 ≤ round4 q := by
  unfold round4
  have : (0 : ℤ) ≤ roundHE (q * 10000) := roundHE_nonneg (by positivity)
  positivity

theorem round4_le_one {q : ℚ} (h : q ≤ 1) : round4 q ≤ 1 := by
  unfold round4
  have h1 : roundHE (q * 10000) ≤ (10000 : ℤ) := by
    apply roundHE_le_of_le_int
    push_cast
    nlinarith
  rw [div_le_one (by norm_num)]
  exact_mod_cast h1

theorem round4_one : round4 1 = 1 := by
  have : roundHE ((1 : ℚ) * 10000) = 10000 := by
    norm_num
    exact roundHE_natCast 10000
  unfold round4
  rw [this]
  norm_num

/-- One row of the Kaleidoscope annotation schema: FOLDER, IN FILE,
CLIP LENGTH, CHANNEL, OFFSET, DURATION, SAMPLE RATE, MANUAL ID. -/
structure Row where
  folder : Str
  infile : Str
  clipLength : ℚ
  channel : ℤ
  offset : ℚ
  duration : ℚ
  sampleRate : ℤ
  manualId : Str
deriving DecidableEq

/-- The FILEPATH column built by `annotation_chunker`:
`kaleidoscope_df["FOLDER"] + kaleidoscope_df["IN FILE"]`. -/
def filepath (r : Row) : Str := r.folder ++ r.infile

/-- Fuel-based recursion for `pdUnique` (structural, so that concrete
instances reduce inside the kernel). -/
def pdUniqueGo {α : Type} [DecidableEq α] : ℕ → List α → List α
  | 0, _ => []
  | _, [] => []
  | fuel + 1, x :: xs => x :: pdUniqueGo fuel (xs.filter (fun y => y ≠ x))

/-- `pandas.Series.unique`: the distinct values in order of first
appearance. -/
def pdUnique {α : Type} [DecidableEq α] (l : List α) : List α :=
  pdUniqueGo l.length l

theorem pdUniqueGo_congr {α : Type} [DecidableEq α] :
    ∀ (fuel₁ fuel₂ : ℕ) (l : List α), l.length ≤ fuel₁ → l.length ≤ fuel₂ →
      pdUniqueGo fuel₁ l = pdUniqueGo fuel₂ l := by
  intro fuel₁
  induction fuel₁ with
  | zero =>
    intro fuel₂ l hl _
    rw [Nat.le_zero, List.length_eq_zero] at hl
    subst hl
    cases fuel₂ <;> rfl
  | succ fuel₁ ih =>
    intro fuel₂ l hl₁ hl₂
    cases l with
    | nil => cases fuel₂ <;> rfl
    | cons x xs =>
      cases fuel₂ with
      | zero => simp at hl₂
      | succ fuel₂ =>
        have hf : (xs.filter (fun y => y ≠ x)).length ≤ xs.length :=
          List.length_filter_le _ _
        show x :: pdUniqueGo fuel₁ (xs.filter (fun y => y ≠ x)) =
          x :: pdUniqueGo fuel₂ (xs.filter (fun y => y ≠ x))
        have h₁ : (xs.filter (fun y => y ≠ x)).length ≤ fuel₁ := by
          simp only [List.length_cons] at hl₁
          omega
        have h₂ : (xs.filter (fun y => y ≠ x)).length ≤ fuel₂ := by
          simp only [List.length_cons] at hl₂
          omega
        rw [ih fuel₂ _ h₁ h₂]

theorem pdUnique_cons {α : Type} [DecidableEq α] (x : α) (xs : List α) :
    pdUnique (x :: xs) = x :: pdUnique (xs.filter (fun y => y ≠ x)) := by
  show pdUniqueGo (xs.length + 1) (x :: xs) = _
  show x :: pdUniqueGo xs.length (xs.filter (fun y => y ≠ x)) = _
  unfold pdUnique
  rw [pdUniqueGo_congr xs.length _ _ (List.length_filter_le _ _) (le_refl _)]

/-- Row accumulation by repeated `pd.concat` in loop order (the growing-table
pattern of the source): the concatenation of the per-key row blocks. -/
def concatMapRows {α β : Type} (g : α → List β) : List α → List β
  | [] => []
  | x :: xs => g x ++ concatMapRows g xs

@[simp] theorem concatMapRows_nil {α β : Type} (g : α → List β) :
    concatMapRows g [] = [] := rfl

@[simp] theorem concatMapRows_cons {α β : Type} (g : α → List β) (x : α) (xs : List α) :
    concatMapRows g (x :: xs) = g x ++ concatMapRows g xs := rfl

theorem mem_concatMapRows {α β : Type} {g : α → List β} {ks : List α} {b : β} :
    b ∈ concatMapRows g ks ↔ ∃ a ∈ ks, b ∈ g a := by
  induction ks with
  | nil => simp
  | cons k ks ih => simp [ih]

theorem concatMapRows_congr {α β : Type} {g h : α → List β} {ks : List α}
    (hgh : ∀ a ∈ ks, g a = h a) : concatMapRows g ks = concatMapRows h ks := by
  induction ks with
  | nil => rfl
  | cons k ks ih =>
    simp only [concatMapRows_cons, hgh k (List.mem_cons_self _ _)]
    rw [ih (fun a ha => hgh a (List.mem_cons_of_mem _ ha))]

theorem filter_concatMapRows {α β : Type} (p : β → Bool) (g : α → List β) (ks : List α) :
    (concatMapRows g ks).filter p = concatMapRows (fun a => (g a).filter p) ks := by
  induction ks with
  | nil => rfl
  | cons k ks ih => simp [List.filter_append, ih]

theorem map_concatMapRows {α β γ : Type} (f : β → γ) (g : α → List β) (ks : List α) :
    (concatMapRows g ks).map f = concatMapRows (fun a => (g a).map f) ks := by
  induction ks with
  | nil => rfl
  | cons k ks ih => simp [ih]

@[simp] theorem pdUnique_nil {α : Type} [DecidableEq α] : pdUnique ([] : List α) = [] :=
  rfl

theorem mem_pdUniqueGo {α : Type} [DecidableEq α] :
    ∀ (fuel : ℕ) (l : List α), l.length ≤ fuel →
      ∀ a : α, (a ∈ pdUniqueGo fuel l ↔ a ∈ l) := by
  intro fuel
  induction fuel with
  | zero =>
    intro l hl a
    rw [Nat.le_zero, List.length_eq_zero] at hl
    subst hl
    rfl
  | succ fuel ih =>
    intro l hl a
    cases l with
    | nil => rfl
    | cons x xs =>
      have hlen : (xs.filter (fun y => y ≠ x)).length ≤ fuel :=
        le_trans (List.length_filter_le _ _) (by simp at hl; omega)
      show a ∈ x :: pdUniqueGo fuel (xs.filter (fun y => y ≠ x)) ↔ _
      rw [List.mem_cons, List.mem_cons, ih (xs.filter (fun y => y ≠ x)) hlen a]
      constructor
      · rintro (h | h)
        · exact Or.inl h
        · exact Or.inr (List.mem_of_mem_filter h)
      · rintro (h | h)
        · exact Or.inl h
        · by_cases hax : a = x
          · exact Or.inl hax
          · exact Or.inr (List.mem_filter.mpr ⟨h, by simpa using hax⟩)

theorem mem_pdUnique {α : Type} [DecidableEq α] {a : α} {l : List α} :
    a ∈ pdUnique l ↔ a ∈ l :=
  mem_pdUniqueGo l.length l (le_refl _) a

theorem pdUniqueGo_nodup {α : Type} [DecidableEq α] :
    ∀ (fuel : ℕ) (l : List α), l.length ≤ fuel → (pdUniqueGo fuel l).Nodup := by
  intro fuel
  induction fuel with
  | zero =>
    intro l hl
    rw [Nat.le_zero, List.length_eq_zero] at hl
    subst hl
    exact List.nodup_nil
  | succ fuel ih =>
    intro l hl
    cases l with
    | nil => exact List.nodup_nil
    | cons x xs =>
      have hlen : (xs.filter (fun y => y ≠ x)).length ≤ fuel :=
        le_trans (List.length_filter_le _ _) (by simp at hl; omega)
      refine List.nodup_cons.mpr ⟨?_, ih _ hlen⟩
      intro hx
      have := List.mem_filter.mp ((mem_pdUniqueGo fuel _ hlen x).mp hx)
      simp at this

theorem pdUnique_nodup {α : Type} [DecidableEq α] (l : List α) :
    (pdUnique l).Nodup :=
  pdUniqueGo_nodup l.length l (le_refl _)

/-! ### annotation_chunker (annotation_post_processing.py, lines 9 to 87) -/

/-- Occupancy of one millisecond index in the union array a species group
writes: `human_arr[minval:maxval] = 1` for every annotation of the group,
with `minval = int(round(OFFSET*1000, 0))` and
`maxval = int(round((OFFSET+DURATION)*1000, 0))`.  NumPy clamps the slice to
the array length; the chunker only queries indices below the array length,
so the clamp is invisible here. -/
def coveredMs (species : List Row) (m : ℤ) : Bool :=
  species.any (fun r =>
    decide (roundHE (r.offset * 1000) ≤ m) &&
    decide (m < roundHE ((r.offset + r.duration) * 1000)))

/-- `max(chunk) >= 0.5` for `chunk = human_arr[chunkStart:chunkEnd]`: some
index of the window carries a 1.  (Python would raise on an empty slice;
the slices taken by the chunker are never empty when chunk_length is at
least 1, see `annotation_chunker_window_spec`.) -/
def chunkMax (species : List Row) (chunkStart chunkEnd : ℤ) : Bool :=
  (List.range (chunkEnd - chunkStart).toNat).any
    (fun d => coveredMs species (chunkStart + (d : ℤ)))

/-- `potential_annotation_count = int(clip_len)//int(chunk_length)`.
Clip lengths are nonnegative in the schema, so Python `int()` truncation
is the floor. -/
def potential_annotation_count (clipLen : ℚ) (chunkLength : ℕ) : ℕ :=
  (⌊clipLen⌋).toNat / chunkLength

/-- The output row emitted for one (clip, species, window) triple:
`OFFSET = chunk_start / 1000`, `DURATION = chunk_length`, `CHANNEL = 0`,
the remaining metadata copied from the first row of the clip group. -/
def mkChunkRow (path file : Str) (clipLen : ℚ) (sr : ℤ) (bird : Str)
    (index chunkLength : ℕ) : Row :=
  { folder := path, infile := file, clipLength := clipLen, channel := 0,
    offset := ((index * chunkLength : ℕ) : ℚ), duration := (chunkLength : ℚ),
    sampleRate := sr, manualId := bird }

/-- The inner species loop of the per-clip body: for each of the
`potential_annotation_count` windows, emit a row when the window of the
occupancy array written by the annotations of `bird` contains a 1
(`max(chunk) >= 0.5`).  `r0` is the first row of the clip group, from which
all clip metadata is read. -/
def birdChunkRows (clipDf : List Row) (r0 : Row) (chunkLength : ℕ) (bird : Str) : List Row :=
  (List.range (potential_annotation_count r0.clipLength chunkLength)).filterMap
    (fun (index : ℕ) =>
      if chunkMax (clipDf.filter (fun r => r.manualId = bird))
          ((index : ℤ) * ((chunkLength : ℤ) * 1000))
          (min (((index : ℤ) + 1) * ((chunkLength : ℤ) * 1000)) ⌊r0.clipLength * 1000⌋) then
        some (mkChunkRow r0.folder r0.infile r0.clipLength r0.sampleRate
          bird index chunkLength)
      else none)

/-- The body of the per-clip loop of `annotation_chunker`: clip metadata is
read from the first row of the group (`unique()[0]`), clips shorter than
chunk_length are skipped, and for each species (`MANUAL ID` values in order
of first appearance) the windowed rows of `birdChunkRows` are emitted.
The group is never empty when called from `annotation_chunker`. -/
def chunkClipRows (clipDf : List Row) (chunkLength : ℕ) : List Row :=
  match clipDf with
  | [] => []
  | r0 :: _ =>
    if r0.clipLength < (chunkLength : ℚ) then []
    else
      concatMapRows (birdChunkRows clipDf r0 chunkLength)
        (pdUnique (clipDf.map (fun r => r.manualId)))

/-- `annotation_chunker(kaleidoscope_df, chunk_length)`: group the table by
the FILEPATH column (FOLDER ++ IN FILE, keys in order of first appearance)
and emit the chunk rows of every group, accumulated in loop order. -/
def annotation_chunker (df : List Row) (chunkLength : ℕ) : List Row :=
  concatMapRows
    (fun clip => chunkClipRows (df.filter (fun r => filepath r = clip)) chunkLength)
    (pdUnique (df.map filepath))

theorem coveredMs_eq_true_iff {species : List Row} {m : ℤ} :
    coveredMs species m = true ↔
      ∃ r ∈ species, roundHE (r.offset * 1000) ≤ m ∧
        m < roundHE ((r.offset + r.duration) * 1000) := by
  unfold coveredMs
  rw [List.any_eq_true]
  simp only [Bool.and_eq_true, decide_eq_true_eq]

theorem chunkMax_eq_true_iff {species : List Row} {s e : ℤ} :
    chunkMax species s e = true ↔
      ∃ m : ℤ, s ≤ m ∧ m < e ∧ coveredMs species m = true := by
  unfold chunkMax
  rw [List.any_eq_true]
  constructor
  · rintro ⟨d, hd, hcov⟩
    rw [List.mem_range] at hd
    exact ⟨s + (d : ℤ), by omega, by omega, hcov⟩
  · rintro ⟨m, h1, h2, hcov⟩
    refine ⟨(m - s).toNat, List.mem_range.mpr (by omega), ?_⟩
    have hm : s + ((m - s).toNat : ℤ) = m := by omega
    rw [hm]
    exact hcov

theorem mem_birdChunkRows {clipDf : List Row} {r0 : Row} {L : ℕ} {bird : Str} {r' : Row} :
    r' ∈ birdChunkRows clipDf r0 L bird ↔
      ∃ index : ℕ, index < potential_annotation_count r0.clipLength L ∧
        chunkMax (clipDf.filter (fun r => r.manualId = bird))
          ((index : ℤ) * ((L : ℤ) * 1000))
          (min (((index : ℤ) + 1) * ((L : ℤ) * 1000)) ⌊r0.clipLength * 1000⌋) = true ∧
        r' = mkChunkRow r0.folder r0.infile r0.clipLength r0.sampleRate bird index L := by
  unfold birdChunkRows
  simp only [List.mem_filterMap, List.mem_range]
  constructor
  · rintro ⟨index, hidx, hsome⟩
    rw [Option.ite_none_right_eq_some, Option.some.injEq] at hsome
    exact ⟨index, hidx, hsome.1, hsome.2.symm⟩
  · rintro ⟨index, hidx, hmax, hr⟩
    refine ⟨index, hidx, ?_⟩
    rw [Option.ite_none_right_eq_some, Option.some.injEq]
    exact ⟨hmax, hr.symm⟩

theorem mem_chunkClipRows {r0 : Row} {rest : List Row} {L : ℕ} {r' : Row} :
    r' ∈ chunkClipRows (r0 :: rest) L ↔
      ¬ r0.clipLength < (L : ℚ) ∧
      ∃ bird ∈ pdUnique ((r0 :: rest).map (fun r => r.manualId)),
        ∃ index : ℕ, index < potential_annotation_count r0.clipLength L ∧
          chunkMax ((r0 :: rest).filter (fun r => r.manualId = bird))
            ((index : ℤ) * ((L : ℤ) * 1000))
            (min (((index : ℤ) + 1) * ((L : ℤ) * 1000)) ⌊r0.clipLength * 1000⌋) = true ∧
          r' = mkChunkRow r0.folder r0.infile r0.clipLength r0.sampleRate bird index L := by
  show r' ∈ (if r0.clipLength < (L : ℚ) then _ else _) ↔ _
  split_ifs with hguard
  · simp [hguard]
  · simp only [hguard, not_false_iff, true_and, mem_concatMapRows, mem_birdChunkRows]

theorem concatMapRows_eq_nil_of {α β : Type} {g : α → List β} {ks : List α}
    (h : ∀ a ∈ ks, g a = []) : concatMapRows g ks = [] := by
  induction ks with
  | nil => rfl
  | cons k ks ih =>
    simp only [concatMapRows_cons, h k (List.mem_cons_self _ _), List.nil_append]
    exact ih (fun a ha => h a (List.mem_cons_of_mem _ ha))

theorem potential_annotation_count_eq_floor {q : ℚ} {L : ℕ} (hq : 0 ≤ q) :
    (potential_annotation_count q L : ℤ) = ⌊q / (L : ℚ)⌋ := by
  unfold potential_annotation_count
  rw [Int.floor_toNat, ← Nat.floor_div_nat]
  exact Int.natCast_floor_eq_floor (div_nonneg hq (Nat.cast_nonneg L))

/-- A ten second clip with a single annotation spanning the whole clip. -/
def exClip10 : List Row :=
  [{ folder := "XC".toList, infile := "clip.wav".toList, clipLength := 10,
     channel := 1, offset := 0, duration := 10, sampleRate := 44100,
     manualId := "bird".toList }]

set_option maxRecDepth 40000 in
/-- C6: with chunk_length L at least 1, every row emitted by the chunker has
DURATION = L, CHANNEL = 0, and OFFSET = k*L for some window index k below
the window count of its clip, with (k+1)*L not exceeding the clip length
(so a tail shorter than L is never labeled); the window count
`int(clip_len)//int(chunk_length)` equals floor(clip_len / chunk_length);
a table whose clips are all shorter than L yields no rows at all; and the
ten second clip chunked at L = 3 yields exactly the offsets 0, 3, 6. -/
theorem annotation_chunker_window_spec (df : List Row) (L : ℕ) (hL : 1 ≤ L) :
    (∀ r' ∈ annotation_chunker df L,
        r'.duration = (L : ℚ) ∧ r'.channel = 0 ∧
        ∃ k : ℕ, r'.offset = ((k * L : ℕ) : ℚ) ∧
          k < potential_annotation_count r'.clipLength L ∧
          (((k + 1) * L : ℕ) : ℚ) ≤ r'.clipLength) ∧
    (∀ q : ℚ, 0 ≤ q → (potential_annotation_count q L : ℤ) = ⌊q / (L : ℚ)⌋) ∧
    ((∀ r ∈ df, r.clipLength < (L : ℚ)) → annotation_chunker df L = []) ∧
    (annotation_chunker exClip10 3).map (fun r => r.offset) = [0, 3, 6] := by
  refine ⟨?_, fun q hq => potential_annotation_count_eq_floor hq, ?_, ?_⟩
  · intro r' hr'
    rw [annotation_chunker, mem_concatMapRows] at hr'
    obtain ⟨clip, _hclip, hmem⟩ := hr'
    cases hgrp : df.filter (fun r => filepath r = clip) with
    | nil =>
      rw [hgrp] at hmem
      simp [chunkClipRows] at hmem
    | cons r0 rest =>
      rw [hgrp] at hmem
      obtain ⟨hguard, bird, _hb, index, hidx, _hmax, hr⟩ := mem_chunkClipRows.mp hmem
      subst hr
      refine ⟨rfl, rfl, index, rfl, hidx, ?_⟩
      have hc0 : (0 : ℚ) ≤ r0.clipLength :=
        le_trans (Nat.cast_nonneg L) (not_lt.mp hguard)
      have h1 : (index + 1) * L ≤ potential_annotation_count r0.clipLength L * L :=
        Nat.mul_le_mul_right _ hidx
      have h2 : potential_annotation_count r0.clipLength L * L ≤ (⌊r0.clipLength⌋).toNat :=
        Nat.div_mul_le_self _ _
      have h3 : (((⌊r0.clipLength⌋).toNat : ℕ) : ℚ) ≤ r0.clipLength := by
        rw [show (((⌊r0.clipLength⌋).toNat : ℕ) : ℚ) = (((⌊r0.clipLength⌋).toNat : ℤ) : ℚ) by
          push_cast; ring]
        rw [Int.toNat_of_nonneg (Int.floor_nonneg.mpr hc0)]
        exact Int.floor_le _
      calc (((index + 1) * L : ℕ) : ℚ)
          ≤ ((potential_annotation_count r0.clipLength L * L : ℕ) : ℚ) := by
            exact_mod_cast h1
        _ ≤ (((⌊r0.clipLength⌋).toNat : ℕ) : ℚ) := by exact_mod_cast h2
        _ ≤ r0.clipLength := h3
  · intro hshort
    rw [annotation_chunker]
    apply concatMapRows_eq_nil_of
    intro clip _hclip
    cases hgrp : df.filter (fun r => filepath r = clip) with
    | nil => simp [chunkClipRows]
    | cons r0 rest =>
      have hr0 : r0 ∈ df := by
        refine List.mem_of_mem_filter (l := df) (p := fun r => filepath r = clip) ?_
        rw [hgrp]
        exact List.mem_cons_self _ _
      simp only [chunkClipRows]
      rw [if_pos (hshort r0 hr0)]
  · with_unfolding_all decide

/-- Witness for C6 at the ten second clip with chunk_length 3. -/
theorem annotation_chunker_window_spec_witness :
    (annotation_chunker exClip10 3).map (fun r => r.offset) = [0, 3, 6] :=
  (annotation_chunker_window_spec exClip10 3 (by norm_num)).2.2.2

/-! ### Key-block lemmas: a concatenation of per-key blocks, each block
carrying its key on every row, behaves like a grouped table. -/

theorem filter_eq_self_of_forall {α : Type} {p : α → Bool} {l : List α}
    (h : ∀ a ∈ l, p a = true) : l.filter p = l :=
  List.filter_eq_self.mpr h

theorem filter_eq_nil_of_forall {α : Type} {p : α → Bool} {l : List α}
    (h : ∀ a ∈ l, ¬ p a = true) : l.filter p = [] :=
  List.filter_eq_nil.mpr h

theorem pdUnique_concatMap_key {α β : Type} [DecidableEq α] [DecidableEq β]
    {key : β → α} {g : α → List β} :
    ∀ {ks : List α}, ks.Nodup → (∀ a ∈ ks, ∀ b ∈ g a, key b = a) →
      pdUnique ((concatMapRows g ks).map key) = ks.filter (fun a => g a ≠ []) := by
  intro ks
  induction ks with
  | nil =>
    intro _ _
    rfl
  | cons a ks ih =>
    intro hnodup hkey
    have hnd := List.nodup_cons.mp hnodup
    have hrest : ∀ x ∈ (concatMapRows g ks).map key, x ≠ a := by
      intro x hx
      obtain ⟨b, hb, hxb⟩ := List.mem_map.mp hx
      obtain ⟨a', ha', hba'⟩ := mem_concatMapRows.mp hb
      have : x = a' := hxb ▸ hkey a' (List.mem_cons_of_mem _ ha') b hba'
      subst this
      intro hcontr
      exact hnd.1 (hcontr ▸ ha')
    have hihyp : ∀ a' ∈ ks, ∀ b ∈ g a', key b = a' :=
      fun a' ha' => hkey a' (List.mem_cons_of_mem _ ha')
    cases hga : g a with
    | nil =>
      simp only [concatMapRows_cons, hga, List.nil_append]
      rw [ih hnd.2 hihyp, List.filter_cons]
      simp [hga]
    | cons b bs =>
      have hba : key b = a := hkey a (List.mem_cons_self _ _) b (by rw [hga]; exact List.mem_cons_self _ _)
      have hbs : ∀ x ∈ bs.map key, x = a := by
        intro x hx
        obtain ⟨b', hb', hxb'⟩ := List.mem_map.mp hx
        exact hxb' ▸ hkey a (List.mem_cons_self _ _) b' (by rw [hga]; exact List.mem_cons_of_mem _ hb')
      simp only [concatMapRows_cons, hga, List.cons_append, List.map_cons, List.map_append, hba]
      rw [pdUnique_cons]
      rw [List.filter_append]
      rw [filter_eq_nil_of_forall (l := bs.map key) (by
        intro x hx
        simp [hbs x hx])]
      rw [filter_eq_self_of_forall (l := (concatMapRows g ks).map key) (by
        intro x hx
        simpa using hrest x hx)]
      rw [List.nil_append, ih hnd.2 hihyp, List.filter_cons]
      simp [hga]

theorem concatMap_filter_eq_single {α β : Type} [DecidableEq α]
    {key : β → α} {g : α → List β} :
    ∀ {ks : List α} {c : α}, ks.Nodup → c ∈ ks →
      (∀ a ∈ ks, ∀ b ∈ g a, key b = a) →
      (concatMapRows g ks).filter (fun b => key b = c) = g c := by
  intro ks
  induction ks with
  | nil =>
    intro c _ hc _
    exact absurd hc (List.not_mem_nil c)
  | cons a ks ih =>
    intro c hnodup hc hkey
    have hnd := List.nodup_cons.mp hnodup
    have hihyp : ∀ a' ∈ ks, ∀ b ∈ g a', key b = a' :=
      fun a' ha' => hkey a' (List.mem_cons_of_mem _ ha')
    simp only [concatMapRows_cons, List.filter_append]
    rcases List.mem_cons.mp hc with hca | hcks
    · subst hca
      rw [filter_eq_self_of_forall (by
        intro b hb
        simp [hkey c (List.mem_cons_self _ _) b hb])]
      rw [filter_eq_nil_of_forall (by
        intro b hb
        obtain ⟨a', ha', hba'⟩ := mem_concatMapRows.mp hb
        have : key b = a' := hihyp a' ha' b hba'
        simp only [this, decide_eq_true_eq]
        intro hcontr
        exact hnd.1 (hcontr ▸ ha')), List.append_nil]
    · have hca : c ≠ a := fun h => hnd.1 (h ▸ hcks)
      rw [filter_eq_nil_of_forall (by
        intro b hb
        have : key b = a := hkey a (List.mem_cons_self _ _) b hb
        simp only [this, decide_eq_true_eq]
        exact fun h => hca h.symm), List.nil_append]
      exact ih hnd.2 hcks hihyp

/-! ### Idempotence of the chunker (C8) -/

theorem concatMapRows_filter_ne_nil {α β : Type} [DecidableEq β] {g : α → List β}
    {ks : List α} :
    concatMapRows g (ks.filter (fun a => g a ≠ [])) = concatMapRows g ks := by
  induction ks with
  | nil => rfl
  | cons a ks ih =>
    rw [List.filter_cons]
    by_cases h : g a = []
    · rw [if_neg (by simp [h]), ih, concatMapRows_cons, h, List.nil_append]
    · rw [if_pos (by simp [h]), concatMapRows_cons, concatMapRows_cons, ih]

theorem window_le_arrLen {clipLen : ℚ} {L index : ℕ} (hguard : ¬ clipLen < (L : ℚ))
    (hidx : index < potential_annotation_count clipLen L) :
    ((index : ℤ) + 1) * ((L : ℤ) * 1000) ≤ ⌊clipLen * 1000⌋ := by
  have hc0 : (0 : ℚ) ≤ clipLen := le_trans (Nat.cast_nonneg L) (not_lt.mp hguard)
  have h1 : (index + 1) * L ≤ potential_annotation_count clipLen L * L :=
    Nat.mul_le_mul_right _ hidx
  have h2 : potential_annotation_count clipLen L * L ≤ (⌊clipLen⌋).toNat :=
    Nat.div_mul_le_self _ _
  have h4 : (((index + 1) * L : ℕ) : ℤ) ≤ ⌊clipLen⌋ := by
    calc (((index + 1) * L : ℕ) : ℤ) ≤ ((⌊clipLen⌋.toNat : ℕ) : ℤ) := by
          exact_mod_cast le_trans h1 h2
      _ = ⌊clipLen⌋ := Int.toNat_of_nonneg (Int.floor_nonneg.mpr hc0)
  have h5 : ⌊clipLen⌋ * 1000 ≤ ⌊clipLen * 1000⌋ := by
    rw [Int.le_floor]
    push_cast
    have h6 := Int.floor_le clipLen
    linarith
  calc ((index : ℤ) + 1) * ((L : ℤ) * 1000) = (((index + 1) * L : ℕ) : ℤ) * 1000 := by
        push_cast
        ring
    _ ≤ ⌊clipLen⌋ * 1000 := by omega
    _ ≤ ⌊clipLen * 1000⌋ := h5

theorem chunkRow_minval (path file : Str) (clipLen : ℚ) (sr : ℤ) (bird : Str)
    (index L : ℕ) :
    roundHE ((mkChunkRow path file clipLen sr bird index L).offset * 1000)
      = (index : ℤ) * ((L : ℤ) * 1000) := by
  show roundHE (((index * L : ℕ) : ℚ) * 1000) = _
  rw [show (((index * L : ℕ) : ℚ) * 1000 : ℚ) = (((index * L * 1000 : ℕ) : ℤ) : ℚ) by
    push_cast; ring]
  rw [roundHE_intCast]
  push_cast
  ring

theorem chunkRow_maxval (path file : Str) (clipLen : ℚ) (sr : ℤ) (bird : Str)
    (index L : ℕ) :
    roundHE (((mkChunkRow path file clipLen sr bird index L).offset
        + (mkChunkRow path file clipLen sr bird index L).duration) * 1000)
      = ((index : ℤ) + 1) * ((L : ℤ) * 1000) := by
  show roundHE ((((index * L : ℕ) : ℚ) + (L : ℚ)) * 1000) = _
  rw [show ((((index * L : ℕ) : ℚ) + (L : ℚ)) * 1000 : ℚ)
      = (((index * L * 1000 + L * 1000 : ℕ) : ℤ) : ℚ) by push_cast; ring]
  rw [roundHE_intCast]
  push_cast
  ring

/-- Rechunking a chunk table sees the same windows occupied: on any window
of the clip, the occupancy array written by the chunk rows of a species has
a 1 exactly when the occupancy array written by the original annotations of
that species had a 1 somewhere in the window. -/
theorem chunkMax_birdChunkRows {clipDf : List Row} {r0 : Row} {L : ℕ} {bird : Str}
    (hL : 1 ≤ L) (hguard : ¬ r0.clipLength < (L : ℚ)) {index : ℕ}
    (hidx : index < potential_annotation_count r0.clipLength L) :
    chunkMax (birdChunkRows clipDf r0 L bird)
      ((index : ℤ) * ((L : ℤ) * 1000))
      (min (((index : ℤ) + 1) * ((L : ℤ) * 1000)) ⌊r0.clipLength * 1000⌋)
    = chunkMax (clipDf.filter (fun r => r.manualId = bird))
      ((index : ℤ) * ((L : ℤ) * 1000))
      (min (((index : ℤ) + 1) * ((L : ℤ) * 1000)) ⌊r0.clipLength * 1000⌋) := by
  have hA : (0 : ℤ) < (L : ℤ) * 1000 := by
    have : (1 : ℤ) ≤ (L : ℤ) := by exact_mod_cast hL
    nlinarith
  rw [min_eq_left (window_le_arrLen hguard hidx)]
  rw [Bool.eq_iff_iff, chunkMax_eq_true_iff, chunkMax_eq_true_iff]
  constructor
  · rintro ⟨m, hm1, hm2, hcov⟩
    rw [coveredMs_eq_true_iff] at hcov
    obtain ⟨r, hrmem, hlo, hhi⟩ := hcov
    obtain ⟨index', hidx', hmax', hr⟩ := mem_birdChunkRows.mp hrmem
    subst hr
    rw [chunkRow_minval] at hlo
    rw [chunkRow_maxval] at hhi
    have hii : index' = index := by
      have h1 : (index' : ℤ) < (index : ℤ) + 1 := by
        have hx : (index' : ℤ) * ((L : ℤ) * 1000) < ((index : ℤ) + 1) * ((L : ℤ) * 1000) :=
          lt_of_le_of_lt hlo hm2
        exact lt_of_mul_lt_mul_right hx (le_of_lt hA)
      have h2 : (index : ℤ) < (index' : ℤ) + 1 := by
        have hx : (index : ℤ) * ((L : ℤ) * 1000) < ((index' : ℤ) + 1) * ((L : ℤ) * 1000) :=
          lt_of_le_of_lt hm1 hhi
        exact lt_of_mul_lt_mul_right hx (le_of_lt hA)
      exact_mod_cast le_antisymm (by omega) (by omega)
    subst hii
    rw [min_eq_left (window_le_arrLen hguard hidx')] at hmax'
    exact chunkMax_eq_true_iff.mp hmax'
  · intro hsp
    have hrow : mkChunkRow r0.folder r0.infile r0.clipLength r0.sampleRate bird index L
        ∈ birdChunkRows clipDf r0 L bird := by
      refine mem_birdChunkRows.mpr ⟨index, hidx, ?_, rfl⟩
      rw [min_eq_left (window_le_arrLen hguard hidx)]
      exact chunkMax_eq_true_iff.mpr hsp
    have hlt : (index : ℤ) * ((L : ℤ) * 1000) < ((index : ℤ) + 1) * ((L : ℤ) * 1000) := by
      nlinarith
    refine ⟨(index : ℤ) * ((L : ℤ) * 1000), le_refl _, hlt, ?_⟩
    rw [coveredMs_eq_true_iff]
    refine ⟨_, hrow, ?_, ?_⟩
    · rw [chunkRow_minval]
    · rw [chunkRow_maxval]
      exact hlt

theorem chunkClipRows_idem (clipDf : List Row) (L : ℕ) (hL : 1 ≤ L)
    (hne : chunkClipRows clipDf L ≠ []) :
    chunkClipRows (chunkClipRows clipDf L) L = chunkClipRows clipDf L := by
  cases clipDf with
  | nil => exact absurd rfl hne
  | cons r0 rest =>
    by_cases hguard : r0.clipLength < (L : ℚ)
    · exfalso
      apply hne
      show (if r0.clipLength < (L : ℚ) then [] else _) = []
      rw [if_pos hguard]
    · have hsegeq : chunkClipRows (r0 :: rest) L =
          concatMapRows (birdChunkRows (r0 :: rest) r0 L)
            (pdUnique ((r0 :: rest).map (fun r => r.manualId))) := by
        show (if r0.clipLength < (L : ℚ) then [] else _) = _
        rw [if_neg hguard]
      have hnodup : (pdUnique ((r0 :: rest).map (fun r => r.manualId))).Nodup :=
        pdUnique_nodup _
      have hkey : ∀ b ∈ pdUnique ((r0 :: rest).map (fun r => r.manualId)),
          ∀ r ∈ birdChunkRows (r0 :: rest) r0 L b, r.manualId = b := by
        intro b _ r hr
        obtain ⟨i, _, _, hr⟩ := mem_birdChunkRows.mp hr
        rw [hr]
        rfl
      have hfields : ∀ r ∈ chunkClipRows (r0 :: rest) L,
          r.folder = r0.folder ∧ r.infile = r0.infile ∧ r.clipLength = r0.clipLength ∧
          r.sampleRate = r0.sampleRate := by
        intro r hr
        obtain ⟨_, b, _, i, _, _, hr⟩ := mem_chunkClipRows.mp hr
        rw [hr]
        exact ⟨rfl, rfl, rfl, rfl⟩
      cases hseg : chunkClipRows (r0 :: rest) L with
      | nil => exact absurd hseg hne
      | cons s0 stail =>
        obtain ⟨hf1, hf2, hf3, hf4⟩ :=
          hfields s0 (by rw [hseg]; exact List.mem_cons_self _ _)
        have hguard' : ¬ s0.clipLength < (L : ℚ) := by rw [hf3]; exact hguard
        show (if s0.clipLength < (L : ℚ) then [] else _) = _
        rw [if_neg hguard']
        rw [show s0 :: stail = chunkClipRows (r0 :: rest) L from hseg.symm]
        rw [hsegeq]
        rw [pdUnique_concatMap_key hnodup hkey]
        rw [concatMapRows_congr (g := fun b =>
            birdChunkRows
              (concatMapRows (birdChunkRows (r0 :: rest) r0 L)
                (pdUnique ((r0 :: rest).map (fun r => r.manualId)))) s0 L b)
          (h := birdChunkRows (r0 :: rest) r0 L) ?_]
        · exact concatMapRows_filter_ne_nil
        · intro b hb
          have hbks : b ∈ pdUnique ((r0 :: rest).map (fun r => r.manualId)) :=
            List.mem_of_mem_filter hb
          have hfiltered :
              (concatMapRows (birdChunkRows (r0 :: rest) r0 L)
                  (pdUnique ((r0 :: rest).map (fun r => r.manualId)))).filter
                  (fun r => r.manualId = b)
                = birdChunkRows (r0 :: rest) r0 L b :=
            concatMap_filter_eq_single hnodup hbks hkey
          have hcongr : birdChunkRows
              (concatMapRows (birdChunkRows (r0 :: rest) r0 L)
                (pdUnique ((r0 :: rest).map (fun r => r.manualId)))) s0 L b
            = birdChunkRows
              (concatMapRows (birdChunkRows (r0 :: rest) r0 L)
                (pdUnique ((r0 :: rest).map (fun r => r.manualId)))) r0 L b := by
            unfold birdChunkRows
            rw [hf1, hf2, hf3, hf4]
          show birdChunkRows
              (concatMapRows (birdChunkRows (r0 :: rest) r0 L)
                (pdUnique ((r0 :: rest).map (fun r => r.manualId)))) s0 L b
            = birdChunkRows (r0 :: rest) r0 L b
          rw [hcongr]
          show (List.range (potential_annotation_count r0.clipLength L)).filterMap
              (fun (i : ℕ) =>
                if chunkMax ((concatMapRows (birdChunkRows (r0 :: rest) r0 L)
                      (pdUnique ((r0 :: rest).map (fun r => r.manualId)))).filter
                      (fun r => r.manualId = b))
                    ((i : ℤ) * ((L : ℤ) * 1000))
                    (min (((i : ℤ) + 1) * ((L : ℤ) * 1000)) ⌊r0.clipLength * 1000⌋) then
                  some (mkChunkRow r0.folder r0.infile r0.clipLength r0.sampleRate b i L)
                else none)
              = birdChunkRows (r0 :: rest) r0 L b
          rw [hfiltered]
          refine Eq.trans (List.filterMap_congr ?_) rfl
          intro i hi
          rw [List.mem_range] at hi
          rw [chunkMax_birdChunkRows hL hguard hi]

/-- C8: chunking is idempotent.  Applying `annotation_chunker` to its own
output with the same chunk_length (at least 1, the documented integer
contract) returns exactly the same rows. -/
theorem annotation_chunker_idempotent (df : List Row) (L : ℕ) (hL : 1 ≤ L) :
    annotation_chunker (annotation_chunker df L) L = annotation_chunker df L := by
  have hkeysnodup : (pdUnique (df.map filepath)).Nodup := pdUnique_nodup _
  have hkey : ∀ c ∈ pdUnique (df.map filepath),
      ∀ r ∈ chunkClipRows (df.filter (fun r => filepath r = c)) L, filepath r = c := by
    intro c _ r hr
    cases hgrp : df.filter (fun r => filepath r = c) with
    | nil =>
      rw [hgrp] at hr
      exact absurd hr (List.not_mem_nil r)
    | cons r0 rest =>
      rw [hgrp] at hr
      obtain ⟨_, b, _, i, _, _, hreq⟩ := mem_chunkClipRows.mp hr
      have hr0 : r0 ∈ df.filter (fun r => filepath r = c) := by
        rw [hgrp]
        exact List.mem_cons_self _ _
      have hr0c : filepath r0 = c := by
        have := (List.mem_filter.mp hr0).2
        simpa using this
      rw [hreq]
      show r0.folder ++ r0.infile = c
      exact hr0c
  show concatMapRows _ (pdUnique ((annotation_chunker df L).map filepath)) = _
  rw [show annotation_chunker df L = concatMapRows
      (fun clip => chunkClipRows (df.filter (fun r => filepath r = clip)) L)
      (pdUnique (df.map filepath)) from rfl]
  rw [pdUnique_concatMap_key hkeysnodup hkey]
  rw [concatMapRows_congr (h := fun clip =>
      chunkClipRows (df.filter (fun r => filepath r = clip)) L) ?_]
  · exact concatMapRows_filter_ne_nil
  · intro c hc
    have hcks : c ∈ pdUnique (df.map filepath) := List.mem_of_mem_filter hc
    have hgcne : chunkClipRows (df.filter (fun r => filepath r = c)) L ≠ [] := by
      have := (List.mem_filter.mp hc).2
      simpa using this
    rw [concatMap_filter_eq_single hkeysnodup hcks hkey]
    exact chunkClipRows_idem _ L hL hgcne

/-- Witness for C8: rechunking the chunked ten second clip at chunk_length 3
reproduces it. -/
theorem annotation_chunker_idempotent_witness :
    annotation_chunker (annotation_chunker exClip10 3) 3 = annotation_chunker exClip10 3 :=
  annotation_chunker_idempotent exClip10 3 (by norm_num)

/-! ### clip_IoU and matrix_IoU_Scores (statistics.py, lines 327 to 487) -/

/-- Occupancy of one sample index by one annotation row rasterized at the
clip sample rate: `arr[row][minval:maxval] = 1` with
`minval = int(round(OFFSET*SAMPLE_RATE, 0))` and
`maxval = int(round((OFFSET+DURATION)*SAMPLE_RATE, 0))`.  Each row is
rasterized individually (not unioned per class). -/
def sampleCovered (r : Row) (sr : ℤ) (m : ℕ) : Bool :=
  decide (roundHE (r.offset * sr) ≤ (m : ℤ)) &&
  decide ((m : ℤ) < roundHE ((r.offset + r.duration) * sr))

/-- One entry of the IoU matrix: the matrix product
`human_arr @ bot_arr.T` gives the shared-positive-sample count of the pair;
a nonzero entry is divided by the union size
`np.sum(np.logical_or(human_arr[i], bot_arr[j]))` and rounded to 4
decimals; a zero entry is skipped, so 0/0 is never formed and the final
`np.nan_to_num` is the identity. -/
def entryIoU (len : ℕ) (sr : ℤ) (h a : Row) : ℚ :=
  if (List.range len).countP (fun m => sampleCovered h sr m && sampleCovered a sr m) = 0 then 0
  else
    round4
      (((List.range len).countP (fun m => sampleCovered h sr m && sampleCovered a sr m) : ℚ)
        / ((List.range len).countP (fun m => sampleCovered h sr m || sampleCovered a sr m) : ℚ))

/-- `SAMPLE_RATE = automated_df["SAMPLE RATE"].to_list()[0]` (Python raises
on an empty automated table; the degenerate default is never relevant for
the theorems below). -/
def clipSampleRate (automated : List Row) : ℤ :=
  ((automated.head?).map (fun r => r.sampleRate)).getD 0

/-- `int(duration * SAMPLE_RATE)` with
`duration = automated_df["CLIP LENGTH"].to_list()[0]`: the occupancy array
length in samples (`int()` truncation is the floor, lengths being
nonnegative in the schema). -/
def clipSampleLen (automated : List Row) : ℕ :=
  (⌊(((automated.head?).map (fun r => r.clipLength)).getD 0) * (clipSampleRate automated : ℚ)⌋).toNat

/-- `clip_IoU(automated_df, manual_df)`: the
(human row count) x (automated row count) matrix of IoU values. -/
def clip_IoU (automated manual : List Row) : List (List ℚ) :=
  manual.map (fun h =>
    automated.map (fun a => entryIoU (clipSampleLen automated) (clipSampleRate automated) h a))

/-- `np.max` over one axis slice.  NumPy raises on an empty reduction; the
degenerate value 0 is never used under the nonemptiness hypotheses of the
theorems below. -/
def npMax (l : List ℚ) : ℚ :=
  match l with
  | [] => 0
  | x :: xs => xs.foldl max x

/-- The confusion row returned by `matrix_IoU_Scores` (the FOLDER, IN FILE
and MANUAL ID metadata are read from the first manual row). -/
structure IoUStatsRow where
  folder : Str
  infile : Str
  manualId : Str
  tp : ℕ
  fn : ℕ
  fp : ℕ
  precisionScore : ℚ
  recallScore : ℚ
  f1Score : ℚ
deriving DecidableEq

/-- `matrix_IoU_Scores(IoU_Matrix, manual_df, threshold)`:
`automated_label_best_fits = np.max(IoU_Matrix, axis=1)` (row maxima),
`tp = (best_fits >= threshold).count`, `fn = (best_fits < threshold).count`,
`max_val_per_column = np.max(IoU_Matrix, axis=0)` (column maxima),
`fp = (col_max < threshold).count`; recall and precision are the rounded
count ratios and F1 is the rounded harmonic mean of the two rounded values;
any ZeroDivisionError sets all three metrics to 0. -/
def matrix_IoU_Scores (M : List (List ℚ)) (manual : List Row) (threshold : ℚ) : IoUStatsRow :=
  let clip_class := ((manual.head?).map (fun r => r.manualId)).getD []
  let audio_dir := ((manual.head?).map (fun r => r.folder)).getD []
  let filename := ((manual.head?).map (fun r => r.infile)).getD []
  let best_fits := M.map npMax
  let tp_count := (best_fits.filter (fun v => threshold ≤ v)).length
  let fn_count := (best_fits.filter (fun v => v < threshold)).length
  let max_val_per_column :=
    (List.range ((M.headD []).length)).map (fun j => npMax (M.filterMap (fun row => row[j]?)))
  let fp_count := (max_val_per_column.filter (fun v => v < threshold)).length
  let metrics :=
    if tp_count + fn_count = 0 ∨ tp_count + fp_count = 0 then ((0 : ℚ), (0 : ℚ), (0 : ℚ))
    else
      let recallV := round4 ((tp_count : ℚ) / ((tp_count : ℚ) + (fn_count : ℚ)))
      let precisionV := round4 ((tp_count : ℚ) / ((tp_count : ℚ) + (fp_count : ℚ)))
      if recallV + precisionV = 0 then ((0 : ℚ), (0 : ℚ), (0 : ℚ))
      else (precisionV, recallV, round4 (2 * (recallV * precisionV) / (recallV + precisionV)))
  { folder := audio_dir, infile := filename, manualId := clip_class,
    tp := tp_count, fn := fn_count, fp := fp_count,
    precisionScore := metrics.1, recallScore := metrics.2.1, f1Score := metrics.2.2 }

theorem countP_add_countP_not {α : Type} (p : α → Bool) (l : List α) :
    l.countP p + l.countP (fun a => !(p a)) = l.length := by
  induction l with
  | nil => rfl
  | cons x xs ih =>
    cases hx : p x <;>
      simp [List.countP_cons, hx] <;>
      omega

theorem countP_range_getD {α : Type} (q : α → Bool) (d : α) :
    ∀ (l : List α), (List.range l.length).countP (fun i => q (l.getD i d)) = l.countP q := by
  intro l
  induction l with
  | nil => rfl
  | cons x xs ih =>
    rw [List.length_cons, List.range_succ_eq_map]
    rw [List.countP_cons, List.countP_map, List.countP_cons]
    have hcomp : (List.range xs.length).countP ((fun i => q ((x :: xs).getD i d)) ∘ (· + 1))
        = (List.range xs.length).countP (fun i => q (xs.getD i d)) := by
      apply List.countP_congr
      intro i _
      rfl
    rw [hcomp, ih]
    rfl

theorem filterMap_getElem_eq_map_getD {j : ℕ} :
    ∀ (M : List (List ℚ)), (∀ row ∈ M, j < row.length) →
      M.filterMap (fun row => row[j]?) = M.map (fun row => row.getD j 0) := by
  intro M
  induction M with
  | nil =>
    intro _
    rfl
  | cons r rows ih =>
    intro h
    have hj : j < r.length := h r (List.mem_cons_self _ _)
    rw [List.filterMap_cons, List.map_cons]
    rw [List.getElem?_eq_getElem hj]
    rw [show r[j] = r.getD j 0 from (List.getD_eq_getElem r 0 hj).symm]
    rw [ih (fun row hrow => h row (List.mem_cons_of_mem _ hrow))]

/-- Spec reading (claim C4): the maximum of row i of the matrix, the best
automated match of human label i. -/
def specRowMax (M : List (List ℚ)) (i : ℕ) : ℚ := npMax (M.getD i [])

/-- Spec reading (claim C4): the maximum of column j of the matrix, the
best human match of automated label j. -/
def specColMax (M : List (List ℚ)) (j : ℕ) : ℚ := npMax (M.map (fun row => row.getD j 0))

/-- Spec reading (claim C4): TP counts the rows whose maximum reaches the
threshold. -/
def specTP (M : List (List ℚ)) (t : ℚ) : ℕ :=
  ((List.range M.length).filter (fun i => t ≤ specRowMax M i)).length

/-- Spec reading (claim C4): FN counts the rows whose maximum stays below
the threshold. -/
def specFN (M : List (List ℚ)) (t : ℚ) : ℕ :=
  ((List.range M.length).filter (fun i => specRowMax M i < t)).length

/-- Spec reading (claim C4): FP counts the columns whose maximum stays
below the threshold. -/
def specFP (M : List (List ℚ)) (t : ℚ) : ℕ :=
  ((List.range ((M.headD []).length)).filter (fun j => specColMax M j < t)).length

/-- C4: for every nonempty rectangular IoU matrix with at least one column
and threshold in (0,1), the best-fit matcher returns TP = the number of
rows whose maximum reaches the threshold, FN = the number of rows whose
maximum stays below it, and FP = the number of columns whose maximum stays
below it. -/
theorem matrix_IoU_Scores_best_fit_spec (M : List (List ℚ)) (manual : List Row) (t : ℚ)
    (hM : M ≠ []) (hrect : ∀ row ∈ M, row.length = (M.headD []).length)
    (hC : (M.headD []).length ≠ 0) (ht0 : 0 < t) (ht1 : t < 1) :
    (matrix_IoU_Scores M manual t).tp = specTP M t ∧
    (matrix_IoU_Scores M manual t).fn = specFN M t ∧
    (matrix_IoU_Scores M manual t).fp = specFP M t := by
  refine ⟨?_, ?_, ?_⟩
  · show ((M.map npMax).filter (fun v => t ≤ v)).length = specTP M t
    unfold specTP specRowMax
    rw [← List.countP_eq_length_filter, ← List.countP_eq_length_filter]
    rw [List.countP_map]
    exact (countP_range_getD (fun row => decide (t ≤ npMax row)) [] M).symm
  · show ((M.map npMax).filter (fun v => v < t)).length = specFN M t
    unfold specFN specRowMax
    rw [← List.countP_eq_length_filter, ← List.countP_eq_length_filter]
    rw [List.countP_map]
    exact (countP_range_getD (fun row => decide (npMax row < t)) [] M).symm
  · show (((List.range ((M.headD []).length)).map
        (fun j => npMax (M.filterMap (fun row => row[j]?)))).filter
        (fun v => v < t)).length = specFP M t
    unfold specFP specColMax
    rw [← List.countP_eq_length_filter, ← List.countP_eq_length_filter]
    rw [List.countP_map]
    apply List.countP_congr
    intro j hj
    rw [List.mem_range] at hj
    have hcols : ∀ row ∈ M, j < row.length := by
      intro row hrow
      rw [hrect row hrow]
      exact hj
    have hrw : M.filterMap (fun row => row[j]?) = M.map (fun row => row.getD j 0) :=
      filterMap_getElem_eq_map_getD M hcols
    simp only [Function.comp_apply]
    rw [hrw]

/-- Witness for C4 at the one-entry matrix [[1/2]] and threshold 1/2. -/
theorem matrix_IoU_Scores_best_fit_spec_witness :
    (matrix_IoU_Scores [[(1 : ℚ)/2]] [] (1/2)).tp = specTP [[(1 : ℚ)/2]] (1/2) ∧
    (matrix_IoU_Scores [[(1 : ℚ)/2]] [] (1/2)).fn = specFN [[(1 : ℚ)/2]] (1/2) ∧
    (matrix_IoU_Scores [[(1 : ℚ)/2]] [] (1/2)).fp = specFP [[(1 : ℚ)/2]] (1/2) :=
  matrix_IoU_Scores_best_fit_spec [[(1 : ℚ)/2]] [] (1/2)
    (by simp) (by intro row hrow; simp at hrow; simp [hrow]) (by simp)
    (by norm_num) (by norm_num)

/-- C10: the TP and FN counts always partition the human rows: each row
maximum is either at least the threshold or below it, so TP + FN equals the
number of rows of the matrix. -/
theorem matrix_IoU_Scores_tp_add_fn (M : List (List ℚ)) (manual : List Row) (t : ℚ)
    (hM : M ≠ []) (hC : (M.headD []).length ≠ 0) (ht0 : 0 < t) (ht1 : t < 1) :
    (matrix_IoU_Scores M manual t).tp + (matrix_IoU_Scores M manual t).fn = M.length := by
  show ((M.map npMax).filter (fun v => t ≤ v)).length
      + ((M.map npMax).filter (fun v => v < t)).length = M.length
  rw [← List.countP_eq_length_filter, ← List.countP_eq_length_filter]
  have h1 : (M.map npMax).countP (fun v => decide (v < t))
      = (M.map npMax).countP (fun v => !(decide (t ≤ v))) := by
    apply List.countP_congr
    intro v _
    simp [not_le]
  rw [h1, countP_add_countP_not, List.length_map]

/-- Witness for C10 at the one-entry matrix [[3/4]] and threshold 1/2. -/
theorem matrix_IoU_Scores_tp_add_fn_witness :
    (matrix_IoU_Scores [[(3 : ℚ)/4]] [] (1/2)).tp
      + (matrix_IoU_Scores [[(3 : ℚ)/4]] [] (1/2)).fn = 1 :=
  matrix_IoU_Scores_tp_add_fn [[(3 : ℚ)/4]] [] (1/2) (by simp) (by simp)
    (by norm_num) (by norm_num)

/-! ### Concrete IoU example (C3) and range properties (C7) -/

/-- Human annotation covering seconds [0, 1] of a ten second clip sampled
at 1 Hz. -/
def exHuman1 : Row :=
  { folder := "F".toList, infile := "ex.wav".toList, clipLength := 10,
    channel := 0, offset := 0, duration := 1, sampleRate := 1,
    manualId := "bird".toList }

/-- Human annotation covering seconds [5, 6] of the same clip. -/
def exHuman2 : Row :=
  { folder := "F".toList, infile := "ex.wav".toList, clipLength := 10,
    channel := 0, offset := 5, duration := 1, sampleRate := 1,
    manualId := "bird".toList }

/-- Automated annotation covering the whole ten second clip. -/
def exAuto : Row :=
  { folder := "F".toList, infile := "ex.wav".toList, clipLength := 10,
    channel := 0, offset := 0, duration := 10, sampleRate := 1,
    manualId := "bird".toList }

/-- Counterexample to C3 as stated: on the [0,1]/[5,6] versus [0,10] clip
at threshold 0.5 the IoU matrix is [[0.1], [0.1]] as the claim says, but
the single automated column has best fit 0.1 < 0.5, so the matcher counts
it as a false positive: FP = 1, not 0. -/
theorem clip_IoU_example_fp_not_zero :
    clip_IoU [exAuto] [exHuman1, exHuman2] = [[1/10], [1/10]] ∧
    (matrix_IoU_Scores (clip_IoU [exAuto] [exHuman1, exHuman2])
      [exHuman1, exHuman2] (1/2)).fp ≠ 0 := by
  constructor
  · with_unfolding_all decide
  · with_unfolding_all decide

/-- C3 (amended): on the [0,1]/[5,6] versus [0,10] clip at threshold 0.5
the IoU matrix has both entries 0.1 and the best-fit matcher returns
TP = 0, FN = 2 and FP = 1 (the automated column with best fit 0.1 < 0.5 is
a false positive). -/
theorem clip_IoU_example_counts :
    clip_IoU [exAuto] [exHuman1, exHuman2] = [[1/10], [1/10]] ∧
    (matrix_IoU_Scores (clip_IoU [exAuto] [exHuman1, exHuman2])
      [exHuman1, exHuman2] (1/2)).tp = 0 ∧
    (matrix_IoU_Scores (clip_IoU [exAuto] [exHuman1, exHuman2])
      [exHuman1, exHuman2] (1/2)).fn = 2 ∧
    (matrix_IoU_Scores (clip_IoU [exAuto] [exHuman1, exHuman2])
      [exHuman1, exHuman2] (1/2)).fp = 1 := by
  refine ⟨?_, ?_, ?_, ?_⟩ <;> with_unfolding_all decide

/-- An annotation of positive duration 0.2 s whose rasterization at 1 Hz is
empty: round(0) = round(0.2) = 0, so no sample is covered. -/
def exTiny : Row :=
  { folder := "F".toList, infile := "t.wav".toList, clipLength := 10,
    channel := 0, offset := 0, duration := 1/5, sampleRate := 1,
    manualId := "bird".toList }

/-- Counterexample to the identity part of C7 as stated: comparing the
positive-duration interval of `exTiny` against an identical interval yields
IoU matrix [[0]], not [[1]], because the interval rounds to an empty set of
samples and the zero intersection is never divided. -/
theorem entryIoU_identity_fails_small :
    (0 : ℚ) < exTiny.duration ∧
    clip_IoU [exTiny] [exTiny] = [[0]] ∧
    clip_IoU [exTiny] [exTiny] ≠ [[1]] := by
  refine ⟨?_, ?_, ?_⟩ <;> with_unfolding_all decide

/-- C7 (amended): every entry of the IoU matrix lies in [0, 1], and
time-disjoint intervals yield entry 0 (for a nonnegative sample rate);
comparing an annotation against an identical interval yields entry 1
provided the interval rasterizes to at least one sample - the unqualified
identity claim fails for positive durations that round to an empty sample
range (see `entryIoU_identity_fails_small`). -/
theorem clip_IoU_range_disjoint_identity (automated manual : List Row) :
    (∀ row ∈ clip_IoU automated manual, ∀ v ∈ row, 0 ≤ v ∧ v ≤ 1) ∧
    (0 ≤ clipSampleRate automated →
      ∀ hr ∈ manual, ∀ ar ∈ automated,
        (hr.offset + hr.duration ≤ ar.offset ∨ ar.offset + ar.duration ≤ hr.offset) →
        entryIoU (clipSampleLen automated) (clipSampleRate automated) hr ar = 0) ∧
    (∀ hr ∈ manual, ∀ ar ∈ automated, hr.offset = ar.offset → hr.duration = ar.duration →
      (∃ m : ℕ, m < clipSampleLen automated ∧
        sampleCovered hr (clipSampleRate automated) m = true) →
      entryIoU (clipSampleLen automated) (clipSampleRate automated) hr ar = 1) := by
  refine ⟨?_, ?_, ?_⟩
  · intro row hrow v hv
    rw [clip_IoU, List.mem_map] at hrow
    obtain ⟨hr, _, hroweq⟩ := hrow
    rw [← hroweq, List.mem_map] at hv
    obtain ⟨ar, _, hveq⟩ := hv
    rw [← hveq]
    unfold entryIoU
    split_ifs with hzero
    · norm_num
    · have hmono : (List.range (clipSampleLen automated)).countP
          (fun m => sampleCovered hr (clipSampleRate automated) m &&
            sampleCovered ar (clipSampleRate automated) m)
          ≤ (List.range (clipSampleLen automated)).countP
          (fun m => sampleCovered hr (clipSampleRate automated) m ||
            sampleCovered ar (clipSampleRate automated) m) := by
        apply List.countP_mono_left
        intro m _ hm
        rw [Bool.and_eq_true] at hm
        rw [Bool.or_eq_true]
        exact Or.inl hm.1
      have hpos : 0 < (List.range (clipSampleLen automated)).countP
          (fun m => sampleCovered hr (clipSampleRate automated) m &&
            sampleCovered ar (clipSampleRate automated) m) := Nat.pos_of_ne_zero hzero
      have hupos : 0 < (List.range (clipSampleLen automated)).countP
          (fun m => sampleCovered hr (clipSampleRate automated) m ||
            sampleCovered ar (clipSampleRate automated) m) := lt_of_lt_of_le hpos hmono
      constructor
      · apply round4_nonneg
        positivity
      · apply round4_le_one
        rw [div_le_one (by exact_mod_cast hupos)]
        exact_mod_cast hmono
  · intro hsr hr _ ar _ hdisj
    unfold entryIoU
    have hzero : (List.range (clipSampleLen automated)).countP
        (fun m => sampleCovered hr (clipSampleRate automated) m &&
          sampleCovered ar (clipSampleRate automated) m) = 0 := by
      rw [List.countP_eq_zero]
      intro m _
      rw [Bool.and_eq_true]
      rintro ⟨hm1, hm2⟩
      unfold sampleCovered at hm1 hm2
      rw [Bool.and_eq_true, decide_eq_true_eq, decide_eq_true_eq] at hm1 hm2
      rcases hdisj with hd | hd
      · have hle : roundHE ((hr.offset + hr.duration) * (clipSampleRate automated : ℚ))
            ≤ roundHE (ar.offset * (clipSampleRate automated : ℚ)) :=
          roundHE_mono (mul_le_mul_of_nonneg_right hd (by exact_mod_cast hsr))
        omega
      · have hle : roundHE ((ar.offset + ar.duration) * (clipSampleRate automated : ℚ))
            ≤ roundHE (hr.offset * (clipSampleRate automated : ℚ)) :=
          roundHE_mono (mul_le_mul_of_nonneg_right hd (by exact_mod_cast hsr))
        omega
    rw [if_pos hzero]
  · intro hr _ ar _ hoff hdur hex
    have hcov : ∀ m : ℕ, sampleCovered ar (clipSampleRate automated) m
        = sampleCovered hr (clipSampleRate automated) m := by
      intro m
      unfold sampleCovered
      rw [hoff, hdur]
    unfold entryIoU
    have hpos : 0 < (List.range (clipSampleLen automated)).countP
        (fun m => sampleCovered hr (clipSampleRate automated) m &&
          sampleCovered ar (clipSampleRate automated) m) := by
      rw [List.countP_pos_iff]
      obtain ⟨m, hm, hcm⟩ := hex
      refine ⟨m, List.mem_range.mpr hm, ?_⟩
      rw [Bool.and_eq_true, hcov]
      exact ⟨hcm, hcm⟩
    rw [if_neg (Nat.pos_iff_ne_zero.mp hpos)]
    have huni : (List.range (clipSampleLen automated)).countP
        (fun m => sampleCovered hr (clipSampleRate automated) m ||
          sampleCovered ar (clipSampleRate automated) m)
        = (List.range (clipSampleLen automated)).countP
        (fun m => sampleCovered hr (clipSampleRate automated) m &&
          sampleCovered ar (clipSampleRate automated) m) := by
      apply List.countP_congr
      intro m _
      rw [hcov m, Bool.or_self, Bool.and_self]
    rw [huni]
    rw [div_self (by
      have := hpos
      positivity)]
    exact round4_one

/-- A one second annotation at 1 Hz: its rasterization covers sample 0. -/
def exIdRow : Row :=
  { folder := "F".toList, infile := "id.wav".toList, clipLength := 10,
    channel := 0, offset := 0, duration := 1, sampleRate := 1,
    manualId := "bird".toList }

/-- Witness for C7 at a clip compared against itself: the single entry of
the matrix is 1, every entry lies in [0, 1], and the disjoint pair
[0,1] and [5,6] gives entry 0. -/
theorem clip_IoU_range_disjoint_identity_witness :
    entryIoU (clipSampleLen [exIdRow]) (clipSampleRate [exIdRow]) exIdRow exIdRow = 1 ∧
    entryIoU (clipSampleLen [exHuman2]) (clipSampleRate [exHuman2]) exHuman1 exHuman2 = 0 := by
  constructor
  · exact (clip_IoU_range_disjoint_identity [exIdRow] [exIdRow]).2.2 exIdRow
      (List.mem_cons_self _ _) exIdRow (List.mem_cons_self _ _) rfl rfl
      ⟨0, by with_unfolding_all decide, by with_unfolding_all decide⟩
  · exact (clip_IoU_range_disjoint_identity [exHuman2] [exHuman1]).2.1
      (by with_unfolding_all decide) exHuman1 (List.mem_cons_self _ _) exHuman2
      (List.mem_cons_self _ _) (by with_unfolding_all decide)

/-! ### global_statistics and global_dataset_statistics (statistics.py,
lines 289 to 325 and 657 to 711): micro-averaging (C5) -/

/-- The global confusion entry returned by `global_statistics`. -/
structure GlobalIoUEntry where
  manualId : Str
  tp : ℕ
  fn : ℕ
  fp : ℕ
  precisionScore : ℚ
  recallScore : ℚ
  f1Score : ℚ
deriving DecidableEq

/-- `global_statistics(statistics_df, manual_id, verbose)`: sums the
TRUE POSITIVE, FALSE NEGATIVE and FALSE POSITIVE columns over all clip
rows, then computes precision = tp_sum/(tp_sum+fp_sum),
recall = tp_sum/(tp_sum+fn_sum) and f1 = 2pr/(p+r) from the summed counts;
a ZeroDivisionError sets all three to 0; the entry rounds to 4 decimals. -/
def global_statistics (stats : List IoUStatsRow) (manual_id : Str) : GlobalIoUEntry :=
  let tp_sum : ℕ := (stats.map (fun r => r.tp)).sum
  let fn_sum : ℕ := (stats.map (fun r => r.fn)).sum
  let fp_sum : ℕ := (stats.map (fun r => r.fp)).sum
  let metrics :=
    if tp_sum + fp_sum = 0 ∨ tp_sum + fn_sum = 0 then ((0 : ℚ), (0 : ℚ), (0 : ℚ))
    else
      if (tp_sum : ℚ) / ((tp_sum : ℚ) + (fp_sum : ℚ))
          + (tp_sum : ℚ) / ((tp_sum : ℚ) + (fn_sum : ℚ)) = 0 then ((0 : ℚ), (0 : ℚ), (0 : ℚ))
      else
        ((tp_sum : ℚ) / ((tp_sum : ℚ) + (fp_sum : ℚ)),
         (tp_sum : ℚ) / ((tp_sum : ℚ) + (fn_sum : ℚ)),
         2 * ((tp_sum : ℚ) / ((tp_sum : ℚ) + (fp_sum : ℚ))
            * ((tp_sum : ℚ) / ((tp_sum : ℚ) + (fn_sum : ℚ))))
           / ((tp_sum : ℚ) / ((tp_sum : ℚ) + (fp_sum : ℚ))
            + (tp_sum : ℚ) / ((tp_sum : ℚ) + (fn_sum : ℚ))))
  { manualId := manual_id, tp := tp_sum, fn := fn_sum, fp := fp_sum,
    precisionScore := round4 metrics.1, recallScore := round4 metrics.2.1,
    f1Score := round4 metrics.2.2 }

/-- A per-clip row of the `general` statistics mode (seconds-valued
confusion counts as produced by `clip_general`). -/
structure GeneralStatsRow where
  folder : Str
  infile : Str
  manualId : Str
  tp : ℚ
  fp : ℚ
  fn : ℚ
  tn : ℚ
  uni : ℚ
deriving DecidableEq

/-- The entry returned by `global_dataset_statistics`. -/
structure GlobalDatasetEntry where
  manualId : Str
  precisionScore : ℚ
  recallScore : ℚ
  f1Score : ℚ
  globalIoU : ℚ
deriving DecidableEq

/-- `global_dataset_statistics(statistics_df, manual_id)`: sums the
TRUE POSITIVE, FALSE POSITIVE, FALSE NEGATIVE and UNION columns, then
computes precision, recall, F1 and global IoU from the summed counts,
rounding to 6 decimals.  (There is no exception guard here; the rational
division-by-zero default 0 stands in for the degenerate float case, which
the theorems below exclude by hypothesis.) -/
def global_dataset_statistics (stats : List GeneralStatsRow) (manual_id : Str) :
    GlobalDatasetEntry :=
  let tp_sum : ℚ := (stats.map (fun r => r.tp)).sum
  let fp_sum : ℚ := (stats.map (fun r => r.fp)).sum
  let fn_sum : ℚ := (stats.map (fun r => r.fn)).sum
  let union_sum : ℚ := (stats.map (fun r => r.uni)).sum
  { manualId := manual_id,
    precisionScore := round6 (tp_sum / (tp_sum + fp_sum)),
    recallScore := round6 (tp_sum / (tp_sum + fn_sum)),
    f1Score := round6 (2 * (tp_sum / (tp_sum + fp_sum) * (tp_sum / (tp_sum + fn_sum)))
      / (tp_sum / (tp_sum + fp_sum) + tp_sum / (tp_sum + fn_sum))),
    globalIoU := round6 (tp_sum / union_sum) }

/-- Spec reading (claim C5): precision recomputed from the summed counts. -/
def microPrecision (stats : List IoUStatsRow) : ℚ :=
  (((stats.map (fun r => r.tp)).sum : ℕ) : ℚ)
    / ((((stats.map (fun r => r.tp)).sum : ℕ) : ℚ) + (((stats.map (fun r => r.fp)).sum : ℕ) : ℚ))

/-- Spec reading (claim C5): recall recomputed from the summed counts. -/
def microRecall (stats : List IoUStatsRow) : ℚ :=
  (((stats.map (fun r => r.tp)).sum : ℕ) : ℚ)
    / ((((stats.map (fun r => r.tp)).sum : ℕ) : ℚ) + (((stats.map (fun r => r.fn)).sum : ℕ) : ℚ))

/-- Spec reading (claim C5): F1 recomputed from the summed counts. -/
def microF1 (stats : List IoUStatsRow) : ℚ :=
  2 * (microPrecision stats * microRecall stats) / (microPrecision stats + microRecall stats)

/-- Spec contrast (claim C5): macro-averaging the per-clip precision
ratios, the computation the claim rules out. -/
def macroPrecisionAvg (stats : List IoUStatsRow) : ℚ :=
  (stats.map (fun r => r.precisionScore)).sum / (stats.length : ℚ)

/-- A clip row with TP = 3, FP = 0, FN = 0 (per-clip precision 1). -/
def exMicroRow1 : IoUStatsRow :=
  { folder := "F".toList, infile := "a.wav".toList, manualId := "bird".toList,
    tp := 3, fn := 0, fp := 0, precisionScore := 1, recallScore := 1, f1Score := 1 }

/-- A clip row with TP = 0, FP = 1, FN = 0 (per-clip precision 0). -/
def exMicroRow2 : IoUStatsRow :=
  { folder := "F".toList, infile := "b.wav".toList, manualId := "bird".toList,
    tp := 0, fn := 0, fp := 1, precisionScore := 0, recallScore := 0, f1Score := 0 }

/-- A general-mode clip row with seconds-valued counts. -/
def exGeneralRow : GeneralStatsRow :=
  { folder := "F".toList, infile := "a.wav".toList, manualId := "bird".toList,
    tp := 2, fp := 1, fn := 1, tn := 6, uni := 4 }

/-- C5: global metrics are micro-averaged: `global_statistics` (IoU path)
and `global_dataset_statistics` (general path) first sum the confusion
counts over all rows and then recompute precision, recall and F1 from the
summed counts; and the result genuinely differs from averaging the
per-clip ratios, as the concrete two-row table shows (micro precision
3/4 versus macro average 1/2). -/
theorem global_statistics_micro_averaged (stats : List IoUStatsRow)
    (gstats : List GeneralStatsRow) (id1 id2 : Str)
    (h1 : (stats.map (fun r => r.tp)).sum + (stats.map (fun r => r.fp)).sum ≠ 0)
    (h2 : (stats.map (fun r => r.tp)).sum + (stats.map (fun r => r.fn)).sum ≠ 0)
    (h3 : microPrecision stats + microRecall stats ≠ 0) :
    ((global_statistics stats id1).precisionScore = round4 (microPrecision stats) ∧
     (global_statistics stats id1).recallScore = round4 (microRecall stats) ∧
     (global_statistics stats id1).f1Score = round4 (microF1 stats)) ∧
    ((global_dataset_statistics gstats id2).precisionScore
        = round6 ((gstats.map (fun r => r.tp)).sum
          / ((gstats.map (fun r => r.tp)).sum + (gstats.map (fun r => r.fp)).sum)) ∧
     (global_dataset_statistics gstats id2).recallScore
        = round6 ((gstats.map (fun r => r.tp)).sum
          / ((gstats.map (fun r => r.tp)).sum + (gstats.map (fun r => r.fn)).sum))) ∧
    (global_statistics [exMicroRow1, exMicroRow2] ("bird".toList)).precisionScore
      ≠ macroPrecisionAvg [exMicroRow1, exMicroRow2] := by
  have hcond : ¬ ((stats.map (fun r => r.tp)).sum + (stats.map (fun r => r.fp)).sum = 0
      ∨ (stats.map (fun r => r.tp)).sum + (stats.map (fun r => r.fn)).sum = 0) := by
    push_neg
    exact ⟨h1, h2⟩
  have h3cast : ¬ ((((stats.map (fun r => r.tp)).sum : ℕ) : ℚ)
        / ((((stats.map (fun r => r.tp)).sum : ℕ) : ℚ) + (((stats.map (fun r => r.fp)).sum : ℕ) : ℚ))
      + (((stats.map (fun r => r.tp)).sum : ℕ) : ℚ)
        / ((((stats.map (fun r => r.tp)).sum : ℕ) : ℚ) + (((stats.map (fun r => r.fn)).sum : ℕ) : ℚ))
      = 0) := h3
  refine ⟨⟨?_, ?_, ?_⟩, ⟨rfl, rfl⟩, ?_⟩
  · show round4 (if _ ∨ _ then ((0 : ℚ), (0 : ℚ), (0 : ℚ)) else _).1 = _
    rw [if_neg hcond, if_neg h3cast]
    rfl
  · show round4 (if _ ∨ _ then ((0 : ℚ), (0 : ℚ), (0 : ℚ)) else _).2.1 = _
    rw [if_neg hcond, if_neg h3cast]
    rfl
  · show round4 (if _ ∨ _ then ((0 : ℚ), (0 : ℚ), (0 : ℚ)) else _).2.2 = _
    rw [if_neg hcond, if_neg h3cast]
    rfl
  · with_unfolding_all decide

/-- Witness for C5 at the two-row table with summed counts TP=3, FP=1,
FN=0 and a one-row general table. -/
theorem global_statistics_micro_averaged_witness :
    (global_statistics [exMicroRow1, exMicroRow2] ("bird".toList)).precisionScore
      = round4 (microPrecision [exMicroRow1, exMicroRow2]) :=
  (global_statistics_micro_averaged [exMicroRow1, exMicroRow2] [exGeneralRow]
    ("bird".toList) ("bird".toList)
    (by with_unfolding_all decide) (by with_unfolding_all decide)
    (by with_unfolding_all decide)).1.1

/-! ### Clip pairing by filename (statistics.py, lines 254 to 258): C9 -/

/-- Python `clip.split(".")`: split on every dot; the empty string yields
one empty part, matching `"".split(".") == [""]`. -/
def splitDot : List Char → List (List Char)
  | [] => [[]]
  | c :: rest =>
    if c = '.' then [] :: splitDot rest
    else
      match splitDot rest with
      | [] => [[c]]
      | g :: gs => (c :: g) :: gs

/-- Python `".".join(parts)`. -/
def joinDot : List (List Char) → List Char
  | [] => []
  | [x] => x
  | x :: y :: rest => x ++ '.' :: joinDot (y :: rest)

/-- `".".join(clip.split(".")[:-1])`: the text before the final
dot-delimited extension (empty when the name has no dot). -/
def pyStem (s : List Char) : List Char := joinDot (splitDot s).dropLast

/-- The manual rows selected for one automated clip:
`manual_df[manual_df["IN FILE"].str.startswith(stem)]` where `stem` is the
clip name before its final extension; the code always prefix-matches on the
stem, it never tries an exact filename match first. -/
def clip_manual_rows (clip : Str) (manual : List Row) : List Row :=
  manual.filter (fun r => (pyStem clip).isPrefixOf r.infile)

/-- Spec reading (claim C9): a manual row matches when its filename equals
the clip filename exactly or, failing that, shares its filename stem. -/
def stemFallbackRows (clip : Str) (manual : List Row) : List Row :=
  manual.filter (fun r => r.infile = clip ∨ pyStem r.infile = pyStem clip)

theorem splitDot_ne_nil : ∀ (s : List Char), splitDot s ≠ [] := by
  intro s
  cases s with
  | nil => simp [splitDot]
  | cons c rest =>
    show (if c = '.' then [] :: splitDot rest else _) ≠ []
    split_ifs
    · simp
    · cases h : splitDot rest <;> simp [splitDot, h]

theorem joinDot_splitDot : ∀ (s : List Char), joinDot (splitDot s) = s := by
  intro s
  induction s with
  | nil => rfl
  | cons c rest ih =>
    show joinDot (if c = '.' then [] :: splitDot rest else _) = c :: rest
    split_ifs with hc
    · cases hsp : splitDot rest with
      | nil => exact absurd hsp (splitDot_ne_nil rest)
      | cons g gs =>
        show [] ++ '.' :: joinDot (g :: gs) = c :: rest
        rw [List.nil_append, hc, ← hsp, ih]
    · cases hsp : splitDot rest with
      | nil => exact absurd hsp (splitDot_ne_nil rest)
      | cons g gs =>
        rw [hsp] at ih
        cases gs with
        | nil =>
          show c :: g = c :: rest
          rw [show joinDot [g] = g from rfl] at ih
          rw [ih]
        | cons y ys =>
          show (c :: g) ++ '.' :: joinDot (y :: ys) = c :: rest
          rw [List.cons_append]
          rw [show g ++ '.' :: joinDot (y :: ys) = joinDot (g :: y :: ys) from rfl]
          rw [ih]

theorem joinDot_dropLast_append :
    ∀ (l : List (List Char)), l ≠ [] → ∃ t, joinDot l.dropLast ++ t = joinDot l := by
  intro l
  induction l with
  | nil => intro h; exact absurd rfl h
  | cons x ys ih =>
    intro _
    cases ys with
    | nil => exact ⟨x, by simp [joinDot]⟩
    | cons y rest =>
      obtain ⟨t, ht⟩ := ih (by simp)
      rw [List.dropLast_cons_of_ne_nil (by simp)]
      cases hdl : (y :: rest).dropLast with
      | nil =>
        rw [hdl] at ht
        refine ⟨'.' :: joinDot (y :: rest), ?_⟩
        show x ++ ('.' :: joinDot (y :: rest)) = joinDot (x :: y :: rest)
        rfl
      | cons z zs =>
        rw [hdl] at ht
        refine ⟨t, ?_⟩
        show (x ++ '.' :: joinDot (z :: zs)) ++ t = x ++ '.' :: joinDot (y :: rest)
        rw [List.append_assoc]
        rw [show ('.' :: joinDot (z :: zs)) ++ t = '.' :: (joinDot (z :: zs) ++ t) from rfl]
        rw [ht]

theorem pyStem_append (s : List Char) : ∃ t, pyStem s ++ t = s := by
  obtain ⟨t, ht⟩ := joinDot_dropLast_append (splitDot s) (splitDot_ne_nil s)
  exact ⟨t, by rw [pyStem, ht, joinDot_splitDot]⟩

theorem isPrefixOf_of_append :
    ∀ (a t b : List Char), a ++ t = b → a.isPrefixOf b = true := by
  intro a
  induction a with
  | nil =>
    intro t b _
    cases b <;> rfl
  | cons x xs ih =>
    intro t b hab
    cases b with
    | nil => exact absurd hab (by simp)
    | cons y ys =>
      rw [List.cons_append, List.cons.injEq] at hab
      show ((x == y) && xs.isPrefixOf ys) = true
      rw [hab.1, Bool.and_eq_true]
      exact ⟨beq_self_eq_true y, ih t ys hab.2⟩

theorem pyStem_isPrefixOf_self (s : List Char) : (pyStem s).isPrefixOf s = true := by
  obtain ⟨t, ht⟩ := pyStem_append s
  exact isPrefixOf_of_append _ t s ht

/-- A manual row named ab.wav: by the claim, the clip a.wav must not match
it (the exact names differ and the stems a and ab differ), but the code
selects it because ab.wav starts with the stem a. -/
def exManualAB : Row :=
  { folder := "F".toList, infile := "ab.wav".toList, clipLength := 10,
    channel := 0, offset := 0, duration := 1, sampleRate := 1,
    manualId := "bird".toList }

/-- Counterexample to C9 as stated: for clip a.wav the code selects the
manual row ab.wav although neither the exact filename nor the stem
matches, so the selection is not exact-match-then-stem-match. -/
theorem clip_pairing_not_stem_equality :
    exManualAB ∈ clip_manual_rows ("a.wav".toList) [exManualAB] ∧
    exManualAB.infile ≠ "a.wav".toList ∧
    pyStem exManualAB.infile ≠ pyStem ("a.wav".toList) ∧
    clip_manual_rows ("a.wav".toList) [exManualAB]
      ≠ stemFallbackRows ("a.wav".toList) [exManualAB] := by
  refine ⟨?_, ?_, ?_, ?_⟩ <;> with_unfolding_all decide

/-- C9 (amended): a manual row is matched to an automated clip exactly when
its filename STARTS WITH the clip filename stem (the text before the final
dot); in particular an exact filename match or a stem-equal filename (an
extension mismatch) is always matched, but filenames whose own stem merely
extends the clip stem are matched too. -/
theorem clip_pairing_startswith_spec (clip : Str) (manual : List Row) (r : Row)
    (hr : r ∈ manual) :
    (r ∈ clip_manual_rows clip manual ↔ (pyStem clip).isPrefixOf r.infile = true) ∧
    ((r.infile = clip ∨ pyStem r.infile = pyStem clip) →
      r ∈ clip_manual_rows clip manual) := by
  constructor
  · rw [clip_manual_rows, List.mem_filter]
    constructor
    · exact fun h => h.2
    · exact fun h => ⟨hr, h⟩
  · rintro (heq | hstem)
    · rw [clip_manual_rows, List.mem_filter]
      refine ⟨hr, ?_⟩
      rw [heq]
      exact pyStem_isPrefixOf_self clip
    · rw [clip_manual_rows, List.mem_filter]
      refine ⟨hr, ?_⟩
      rw [← hstem]
      exact pyStem_isPrefixOf_self r.infile

/-- A manual row whose filename shares the stem song with the clip
song.wav but carries the extension mp3. -/
def exManualMp3 : Row :=
  { folder := "F".toList, infile := "song.mp3".toList, clipLength := 10,
    channel := 0, offset := 0, duration := 1, sampleRate := 1,
    manualId := "bird".toList }

/-- Witness for C9: the extension-mismatched manual row song.mp3 is matched
to the automated clip song.wav. -/
theorem clip_pairing_startswith_spec_witness :
    exManualMp3 ∈ clip_manual_rows ("song.wav".toList) [exManualMp3] :=
  (clip_pairing_startswith_spec ("song.wav".toList) [exManualMp3] exManualMp3
    (List.mem_cons_self _ _)).2 (Or.inr (by with_unfolding_all decide))

/-! ### automated_labeling_statistics (statistics.py, lines 188 to 286): C1 -/

/-- A Python value appearing in the error-report expression of
`automated_labeling_statistics`: the counters are ints, the message pieces
strings. -/
inductive PyVal where
  | str (s : Str)
  | int (n : ℤ)
deriving DecidableEq

/-- Python `+` on strings and ints: concatenation or addition when the two
types agree, a TypeError otherwise. -/
def pyAdd : PyVal → PyVal → Except Str PyVal
  | .str a, .str b => .ok (.str (a ++ b))
  | .int a, .int b => .ok (.int (a + b))
  | .str _, .int _ => .error ("TypeError: can only concatenate str and int".toList)
  | .int _, .str _ => .error ("TypeError: unsupported operand types int and str".toList)

/-- The per-clip loop of `automated_labeling_statistics`: num_processed is
incremented for every clip, the per-clip statistics computation runs inside
try/except BaseException, a failure increments num_errors and the loop
continues with the next clip, a success appends its row.  The per-clip body
(filtering both tables to the clip and calling clip_general or
clip_IoU/matrix_IoU_Scores, either of which can raise, e.g. a KeyError when
the clip is missing from the manual table) is abstracted as perClip.
Returns (num_errors, num_processed, accumulated statistics rows). -/
def labelingLoop (clips : List Str) (perClip : Str → Except Str IoUStatsRow) :
    ℕ × ℕ × List IoUStatsRow :=
  clips.foldl (fun acc clip =>
    match perClip clip with
    | .ok row => (acc.1, acc.2.1 + 1, acc.2.2 ++ [row])
    | .error _ => (acc.1 + 1, acc.2.1 + 1, acc.2.2)) (0, 0, [])

/-- `automated_labeling_statistics` after the loop: when num_errors > 0 the
source builds the message
`"Something went wrong with" + num_errors + "clips out of" + str(len(clips)) + "clips"`
as the argument of checkVerbose.  Only len(clips) is wrapped in str(...);
the first `+` concatenates a str with the int num_errors, so the argument
expression itself raises TypeError (before checkVerbose can run, whatever
verbose is) and the call aborts instead of returning the statistics. -/
def automated_labeling_statistics (clips : List Str)
    (perClip : Str → Except Str IoUStatsRow) (verbose : Bool) :
    Except Str (List IoUStatsRow) :=
  match labelingLoop clips perClip with
  | (numErrors, _numProcessed, stats) =>
    if 0 < numErrors then
      match pyAdd (.str ("Something went wrong with".toList)) (.int numErrors) with
      | .error e => .error e
      | .ok m1 =>
        match pyAdd m1 (.str ("clips out of".toList)) with
        | .error e => .error e
        | .ok m2 =>
          match pyAdd m2 (.str ((Nat.repr clips.length).toList)) with
          | .error e => .error e
          | .ok m3 =>
            match pyAdd m3 (.str ("clips".toList)) with
            | .error e => .error e
            | .ok _ => .ok stats
    else .ok stats

/-- A successful statistics row for clip a.wav. -/
def exRowA : IoUStatsRow :=
  { folder := "F".toList, infile := "a.wav".toList, manualId := "bird".toList,
    tp := 1, fn := 0, fp := 0, precisionScore := 1, recallScore := 1, f1Score := 1 }

/-- A successful statistics row for clip b.wav. -/
def exRowB : IoUStatsRow :=
  { folder := "F".toList, infile := "b.wav".toList, manualId := "bird".toList,
    tp := 2, fn := 0, fp := 0, precisionScore := 1, recallScore := 1, f1Score := 1 }

/-- A per-clip computation that raises on a.wav (e.g. the clip is missing
from the manual table) and succeeds on every other clip. -/
def exPerClip : Str → Except Str IoUStatsRow := fun clip =>
  if clip = "a.wav".toList then .error ("KeyError: 0".toList) else .ok exRowB

/-- A per-clip computation that succeeds on every clip. -/
def exPerClipOk : Str → Except Str IoUStatsRow := fun clip =>
  if clip = "a.wav".toList then .ok exRowA else .ok exRowB

/-- C1 is a code bug: the per-clip try/except does catch the failing first
clip and the loop continues (the second clip is processed and its row kept,
num_errors = 1, num_processed = 2), but because num_errors > 0 the final
report concatenates a str with the int num_errors and the run aborts with
TypeError instead of completing and reporting the counts.  With no failing
clip the same call returns the statistics normally. -/
theorem automated_labeling_statistics_report_crash :
    labelingLoop ["a.wav".toList, "b.wav".toList] exPerClip = (1, 2, [exRowB]) ∧
    automated_labeling_statistics ["a.wav".toList, "b.wav".toList] exPerClip true
      = .error ("TypeError: can only concatenate str and int".toList) ∧
    automated_labeling_statistics ["a.wav".toList, "b.wav".toList] exPerClipOk true
      = .ok [exRowA, exRowB] := by
  refine ⟨by with_unfolding_all decide, by with_unfolding_all rfl, by with_unfolding_all rfl⟩

/-! ### get_confidence_array (annotation_post_processing.py, lines 122 to
170): C2 -/

/-- One (FOLDER, IN FILE) group of the chunked dataframe, as iterated by
`np.unique(manual_df.index)` (sorted order): the clip file name, its
CLIP LENGTH, and the DURATION of its first row (from which the code reads
the chunk length). -/
structure ConfClip where
  file : Str
  clipLength : ℚ
  firstDuration : ℚ
deriving DecidableEq

/-- The element count of Python `range(start, stop, step)` for a nonzero
step. -/
def pyRangeLen (start stop step : ℤ) : ℕ :=
  if 0 < step then (max 0 ((stop - start + step - 1) / step)).toNat
  else (max 0 ((start - stop - step - 1) / (-step))).toNat

/-- The inner max-pooling loop: starting from `max_score = 0.0`, scan
`local_score_clip[j]` for j in [startIndex, endIndex) keeping the strictly
larger value; an index outside the list raises IndexError.  (A negative j
would wrap around in Python; it cannot occur for the nonnegative start
indices produced by the caller.) -/
def maxOverScores (scores : List ℚ) (startIndex endIndex : ℤ) : Except Str ℚ :=
  (List.range (endIndex - startIndex).toNat).foldlM (fun acc d =>
    if 0 ≤ startIndex + (d : ℤ) ∧ (startIndex + (d : ℤ)).toNat < scores.length then
      let v := scores.getD (startIndex + (d : ℤ)).toNat 0
      Except.ok (if acc < v then v else acc)
    else Except.error ("IndexError: list index out of range".toList)) 0

/-- The clip loop of `get_confidence_array`, threading the counter k into
chunk_size_list, the stale inner loop variable i (undefined before any
inner iteration has run) and the accumulated scores.  For each clip the
confidence-path chunk count is `num_chunks = math.floor(duration_of_clip/3)`
- the 3 is hardcoded regardless of the chunk length used by the target path.
On `num_chunks != chunk_size_list[k][0]` the source prints BAD CHUNK SIZE
diagnostics (the second print indexes chunk_size_list with the stale i,
a NameError when no inner loop has run yet) and then BREAKS, returning the
scores accumulated so far; otherwise every chunk window appends the maximum
local score over its index range. -/
def confidenceLoop (localScores : Str → List ℚ) (chunkSizeList : List (ℕ × ℚ × Str)) :
    List ConfClip → ℕ → Option ℤ → List ℚ → Except Str (List ℚ)
  | [], _, _, acc => .ok acc
  | g :: rest, k, lastI, acc =>
    match chunkSizeList[k]? with
    | none => .error ("IndexError: list index out of range".toList)
    | some entry =>
      if ⌊g.clipLength / 3⌋ ≠ (entry.1 : ℤ) then
        match lastI with
        | none => .error ("NameError: name i is not defined".toList)
        | some i =>
          if 0 ≤ i ∧ i.toNat < chunkSizeList.length then .ok acc
          else .error ("IndexError: list index out of range".toList)
      else
        let scores := localScores g.file
        let chunkLength : ℤ := ⌊g.firstDuration⌋
        if chunkLength = 0 then .error ("ValueError: range arg 3 must not be zero".toList)
        else
          let steps := pyRangeLen 0 (⌊g.clipLength / 3⌋ * chunkLength) chunkLength
          match (List.range steps).foldlM (fun ms d =>
              match maxOverScores scores
                  ⌊((scores.length : ℚ) / g.clipLength) * ((d : ℤ) * chunkLength : ℤ)⌋
                  ⌊((scores.length : ℚ) / g.clipLength) * (((d : ℤ) * chunkLength : ℤ) + chunkLength : ℤ)⌋ with
              | .ok m => Except.ok (ms ++ [m])
              | .error e => Except.error e) ([] : List ℚ) with
          | .error e => .error e
          | .ok ms =>
            confidenceLoop localScores chunkSizeList rest (k + 1)
              (if 0 < steps then some (((steps - 1 : ℕ) : ℤ) * chunkLength) else lastI)
              (acc ++ ms)

/-- `get_confidence_array(local_scores_array, chunked_df, chunk_size_list)`. -/
def get_confidence_array (localScores : Str → List ℚ) (clipGroups : List ConfClip)
    (chunkSizeList : List (ℕ × ℚ × Str)) : Except Str (List ℚ) :=
  confidenceLoop localScores chunkSizeList clipGroups 0 none []

/-- A five second clip chunked at length 5 (one target chunk). -/
def exConfClip1 : ConfClip := { file := "f1".toList, clipLength := 5, firstDuration := 5 }

/-- A ten second clip chunked at length 5 (two target chunks, but the
confidence path derives floor(10/3) = 3 chunks). -/
def exConfClip2 : ConfClip := { file := "f2".toList, clipLength := 10, firstDuration := 5 }

/-- Local score curves for the two clips. -/
def exLocalScores : Str → List ℚ := fun f =>
  if f = "f1".toList then [1/2, 1/4, 3/4] else [1/2, 1/2, 1/2]

/-- The target-path chunk counts produced with chunk length 5:
floor(5/5) = 1 for f1 and floor(10/5) = 2 for f2. -/
def exChunkSizeList : List (ℕ × ℚ × Str) :=
  [(1, 5, "f1".toList), (2, 10, "f2".toList)]

/-- C2 is a code bug: the confidence path derives its chunk count as
floor(clip_length/3) with a hardcoded 3, so with target chunk length 5 the
second clip mismatches (floor(10/3) = 3, target count 2); the code then
prints a diagnostic and breaks, returning the scores accumulated for the
first clip only - an Except.ok truncated array (one entry instead of the
three target entries) - instead of raising an AlignmentMismatchError. -/
theorem get_confidence_array_truncates_on_mismatch :
    get_confidence_array exLocalScores [exConfClip1, exConfClip2] exChunkSizeList
      = .ok [3/4] ∧
    ⌊(10 : ℚ) / 3⌋ ≠ (2 : ℤ) := by
  exact ⟨by with_unfolding_all rfl, by with_unfolding_all decide⟩

end PyHa
